import Mathlib

/-!
Verification development for the collaborative document service: the
single-writer lock manager, the access/sharing handlers and the
spreadsheet formula evaluator, shallowly embedded from the TypeScript
sources (backend `documents` routes, `Document` model, frontend
evaluator).  Strings are modelled as `String`/`List Char`, timestamps as
`Int` milliseconds, and JavaScript numbers as exact fractions (see
`JsNum` below).
-/

/-! ## Character classes

The source regexes use ASCII classes: `[A-Z]` is codepoints 65..90,
`[0-9]` is 48..57, `[1-9]` is 49..57.  JavaScript `trim` whitespace is
modelled by the common ASCII whitespace plus NBSP; exotic Unicode space
codepoints are outside the model (no claim involves them). -/

def isWsChar (c : Char) : Bool :=
  decide (c.toNat = 32) || (decide (9 ≤ c.toNat) && decide (c.toNat ≤ 13)) || decide (c.toNat = 160)

def isDigitChar (c : Char) : Bool := decide (48 ≤ c.toNat) && decide (c.toNat ≤ 57)

def isDigit19Char (c : Char) : Bool := decide (49 ≤ c.toNat) && decide (c.toNat ≤ 57)

def isUpperAZ (c : Char) : Bool := decide (65 ≤ c.toNat) && decide (c.toNat ≤ 90)

/-- Drop leading JS whitespace (first half of `String.prototype.trim`). -/
def dropLeadWs (l : List Char) : List Char := l.dropWhile isWsChar

/-- Drop trailing JS whitespace (second half of `String.prototype.trim`). -/
def dropTrailWs : List Char → List Char
  | [] => []
  | c :: r =>
    match dropTrailWs r with
    | [] => if isWsChar c then [] else [c]
    | r2 => c :: r2

/-- Model of `s.trim()`. -/
def trimL (l : List Char) : List Char := dropTrailWs (dropLeadWs l)

/-- Model of `s.toUpperCase()`.  `Char.toUpper` uppercases exactly the
ASCII letters, which agrees with JavaScript on all ASCII input (the only
input the claims mention). -/
def upperL (l : List Char) : List Char := l.map Char.toUpper

/-- Model of `s.split(sep)`: all separated segments, in order, keeping
empty segments (as JavaScript does). -/
def splitSepL (sep : Char) (l : List Char) : List (List Char) :=
  match l with
  | [] => [[]]
  | c :: rest =>
    match splitSepL sep rest with
    | [] => [[]]
    | s :: ss => if c = sep then [] :: s :: ss else (c :: s) :: ss

/-- Numeric value of a list of decimal digit characters (the
`Number(m[2])` step of `parseCellRef`, and the exponent digits of a
numeric literal). -/
def decVal (ds : List Char) : Nat := ds.foldl (fun a c => a * 10 + (c.toNat - 48)) 0

def digitChar9 (n : Nat) : Char := Char.ofNat (48 + n)

/-- Decimal rendering of a natural number, fuel-indexed so that it is
structurally recursive (the fuel `n + 1` is always sufficient). -/
def natDecAux : Nat → Nat → List Char
  | 0, _ => []
  | fuel + 1, n => if n < 10 then [digitChar9 n] else natDecAux fuel (n / 10) ++ [digitChar9 (n % 10)]

def natDec (n : Nat) : List Char := natDecAux (n + 1) n

def intDec (i : Int) : List Char :=
  if i < 0 then '-' :: natDec i.natAbs else natDec i.natAbs

/-! ## JavaScript numbers

`JsNum` is an exact (possibly unnormalised) fraction `num / den`.  It
stands in for the IEEE-754 doubles of the source: every value the claims
exercise is a small integer, where exact fractions and doubles agree,
and no claim depends on float rounding or on the decimal rendering of a
non-integral double.  `Option JsNum` models a number-or-NaN; the
nonfinite values (`Infinity`) are outside the model. -/

structure JsNum where
  num : Int
  den : Nat
  deriving DecidableEq

def jzero : JsNum := ⟨0, 1⟩

/-- Model of JavaScript `+` on numbers (exact fraction addition,
unnormalised). -/
def JsNum.addJ (a b : JsNum) : JsNum := ⟨a.num * b.den + b.num * a.den, a.den * b.den⟩

def radixDigitVal (radix : Nat) (c : Char) : Option Nat :=
  let v :=
    if 48 ≤ c.toNat ∧ c.toNat ≤ 57 then some (c.toNat - 48)
    else if 65 ≤ c.toNat ∧ c.toNat ≤ 70 then some (c.toNat - 55)
    else if 97 ≤ c.toNat ∧ c.toNat ≤ 102 then some (c.toNat - 87)
    else none
  match v with
  | some d => if d < radix then some d else none
  | none => none

/-- Value of a nonempty all-valid digit string in the given radix
(the `0x` / `0o` / `0b` literals of ECMAScript `StringToNumber`). -/
def parseRadixNat (radix : Nat) (ds : List Char) : Option Nat :=
  if ds.isEmpty then none
  else
    ds.foldl
      (fun acc c =>
        match acc, radixDigitVal radix c with
        | some a, some d => some (a * radix + d)
        | _, _ => none)
      (some 0)

def parseExpDigits (l : List Char) : Option Int :=
  match l with
  | [] => none
  | _ => if l.all isDigitChar then some (decVal l) else none

/-- Parse the optional exponent suffix of a decimal literal
(`e`/`E`, optional sign, digits); empty input means exponent 0. -/
def parseExpPart (l : List Char) : Option Int :=
  match l with
  | [] => some 0
  | c :: r =>
    if c = 'e' ∨ c = 'E' then
      match r with
      | '+' :: ds => parseExpDigits ds
      | '-' :: ds => (parseExpDigits ds).map (fun e => -e)
      | ds => parseExpDigits ds
    else none

def scaleByExp (n : Int) (d : Nat) (e : Int) : JsNum :=
  match e with
  | Int.ofNat k => ⟨n * (10 ^ k : Nat), d⟩
  | Int.negSucc k => ⟨n, d * 10 ^ (k + 1)⟩

/-- Parse an unsigned ECMAScript `StrUnsignedDecimalLiteral`
(`digits`, `digits.digits`, `.digits`, optional exponent), as an exact
fraction. -/
def parseUnsignedDec (l : List Char) : Option JsNum :=
  let ip := l.takeWhile isDigitChar
  let r1 := l.drop ip.length
  match r1 with
  | '.' :: r2 =>
    let fp := r2.takeWhile isDigitChar
    let r3 := r2.drop fp.length
    if ip.isEmpty && fp.isEmpty then none
    else (parseExpPart r3).map (scaleByExp (decVal ip * 10 ^ fp.length + decVal fp) (10 ^ fp.length))
  | _ =>
    if ip.isEmpty then none
    else (parseExpPart r1).map (scaleByExp (decVal ip) 1)

/-- Model of JavaScript `Number(s)` (ECMAScript `StringToNumber`):
trim; empty means 0; `0x`/`0o`/`0b` integer literals (no sign); else an
optionally signed decimal literal.  `none` is NaN.  `Infinity` and
float rounding are outside the model (no claim involves them). -/
def jsNumber (l : List Char) : Option JsNum :=
  match trimL l with
  | [] => some jzero
  | '0' :: c :: ds =>
    if c = 'x' ∨ c = 'X' then (parseRadixNat 16 ds).map (fun n => ⟨n, 1⟩)
    else if c = 'o' ∨ c = 'O' then (parseRadixNat 8 ds).map (fun n => ⟨n, 1⟩)
    else if c = 'b' ∨ c = 'B' then (parseRadixNat 2 ds).map (fun n => ⟨n, 1⟩)
    else parseUnsignedDec ('0' :: c :: ds)
  | '+' :: r => parseUnsignedDec r
  | '-' :: r => (parseUnsignedDec r).map (fun q => ⟨-q.num, q.den⟩)
  | t => parseUnsignedDec t

/-- Model of JavaScript `String(n)` on the evaluator's numbers.
Integer-valued results render exactly as in JavaScript; a non-integral
result is rendered as an exact fraction (standing in for the float
decimal expansion, which no claim depends on). -/
def jsNumToStr (q : JsNum) : List Char :=
  if q.den ≠ 0 ∧ q.num % (q.den : Int) = 0 then intDec (q.num / (q.den : Int))
  else intDec q.num ++ '/' :: natDec q.den

/-! ## Spreadsheet formula evaluator

Embedded from the frontend `parseCellRef` / `getRaw` / `sumRange` /
`evalCell` (both copies in the source have identical logic). -/

structure CellRef where
  col : Char
  row : Nat
  deriving DecidableEq

def rowDigitsOk : List Char → Bool
  | [] => false
  | d :: ds => isDigit19Char d && ds.all isDigitChar

/-- Match of the anchored regex `([A-Z])([1-9]\d*)` against an already
trimmed and uppercased string. -/
def cellRefCore (l : List Char) : Option CellRef :=
  match l with
  | c :: ds => if isUpperAZ c && rowDigitsOk ds then some ⟨c, decVal ds⟩ else none
  | [] => none

/-- Model of `parseCellRef(ref)`: `ref.trim().toUpperCase()` matched
against `^([A-Z])([1-9]\d*)$`. -/
def parseCellRef (l : List Char) : Option CellRef := cellRefCore (upperL (trimL l))

/-- A cell map (the `cells` record of the evaluator): association list
of raw key to raw value, unique keys, first match wins. -/
abbrev Cells := List (String × String)

def lookupCells (cells : Cells) (k : String) : Option String :=
  (cells.find? (fun kv => kv.1 == k)).map (fun kv => kv.2)

/-- Model of `getRaw(cells, key)`:
`(cells?.[key.toUpperCase()] ?? "").trim()`. -/
def getRawL (cells : Cells) (key : List Char) : List Char :=
  trimL ((lookupCells cells (String.mk (upperL key))).getD "").data

def getRaw (cells : Cells) (key : String) : String := String.mk (getRawL cells key.data)

/-- One loop step of the sums in `sumRange` / `evalCell`:
`const n = Number(raw); if (!Number.isNaN(n)) s += n;`. -/
def cellContrib (cells : Cells) (key : List Char) (s : JsNum) : JsNum :=
  match jsNumber (getRawL cells key) with
  | some n => s.addJ n
  | none => s

/-- Model of `sumRange(a, b, cells)`: parse both corners, normalise the
rectangle by min/max in the column and row dimension, and sum the
numeric raw values of every cell in the span; 0 when a corner fails to
parse. -/
def sumRangeL (a b : List Char) (cells : Cells) : JsNum :=
  match parseCellRef a, parseCellRef b with
  | some A, some B =>
    let c1 := A.col.toNat
    let c2 := B.col.toNat
    let cMin := min c1 c2
    let cMax := max c1 c2
    let rMin := min A.row B.row
    let rMax := max A.row B.row
    (List.range' cMin (cMax + 1 - cMin)).foldl
      (fun s c =>
        (List.range' rMin (rMax + 1 - rMin)).foldl
          (fun s2 r => cellContrib cells (Char.ofNat c :: natDec r) s2) s)
      jzero
  | _, _ => jzero

def sumRange (a b : String) (cells : Cells) : JsNum := sumRangeL a.data b.data cells

def errMark : List Char := ['#', 'E', 'R', 'R']

/-- True of the JavaScript line terminators, which the regex
metacharacter `.` never matches (the source regex has no `s` flag):
LF, CR, U+2028 and U+2029. -/
def isLineTerm (c : Char) : Bool :=
  decide (c.toNat = 10) || decide (c.toNat = 13) ||
    decide (c.toNat = 8232) || decide (c.toNat = 8233)

/-- Match of the anchored regex `=SUM\((.+)\)` against the uppercased
raw value: returns the (greedy, nonempty) argument text, which `.+`
requires to be free of line terminators. -/
def sumWrapper (u : List Char) : Option (List Char) :=
  match u with
  | '=' :: 'S' :: 'U' :: 'M' :: '(' :: rest =>
    if rest.getLast? = some ')' ∧ 2 ≤ rest.length
        ∧ rest.dropLast.all (fun c => !isLineTerm c) = true
    then some rest.dropLast else none
  | _ => none

/-- One step of the comma-list sum in `evalCell`: skip an unparsable
reference, otherwise add the numeric raw value at the referenced key. -/
def refContrib (cells : Cells) (p : List Char) (s : JsNum) : JsNum :=
  match parseCellRef p with
  | some ref => cellContrib cells (ref.col :: natDec ref.row) s
  | none => s

/-- Model of `evalCell(raw, cells)`: a non-formula evaluates to its own
trimmed text; a formula must match `=SUM\((.+)\)` on the uppercased
text (else `#ERR`); an argument containing `:` is treated as a range
through the first two `:`-separated pieces; otherwise the argument is a
comma list of references, invalid ones skipped. -/
def evalCellL (raw : List Char) (cells : Cells) : List Char :=
  let v := trimL raw
  if v.head? = some '=' then
    match sumWrapper (upperL v) with
    | none => errMark
    | some inside0 =>
      let inside := trimL inside0
      if inside.contains ':' then
        let ps := splitSepL ':' inside
        jsNumToStr (sumRangeL (ps.headD []) ((ps.drop 1).headD []) cells)
      else
        let parts := ((splitSepL ',' inside).map trimL).filter (fun p => !p.isEmpty)
        jsNumToStr (parts.foldl (fun s p => refContrib cells p s) jzero)
  else v

def evalCell (raw : String) (cells : Cells) : String := String.mk (evalCellL raw.data cells)

/-! ## Document model and handlers

Embedded from the backend `Document` schema and the `documents` routes.
The persistence boundary (`findById`, 404s, invalid-id checks, `save`)
is modelled away: each handler is a pure function from the fetched
document and the request data to a result and the saved document.  The
repository contains two copies of the routes file; they differ only in
the lock TTL constant (2 vs 10 minutes, here a parameter), except for
`grant-editor`, where the stale copy lacks the owner-target check and
is modelled separately as `grantEditorStale`. -/

inductive DocType
  | text
  | spreadsheet
  deriving DecidableEq

structure LockState where
  userId : Option String
  lockedAt : Option Int
  deriving DecidableEq

structure Doc where
  ownerId : String
  title : String
  dtype : DocType
  content : String
  cells : Cells
  editors : List String
  publicShareId : Option String
  isPublic : Bool
  lock : LockState
  comments : List String
  deriving DecidableEq

inductive OpResult
  | ok
  | forbidden
  | locked
  | badType
  | invalid
  deriving DecidableEq

/-- Model of `canEdit(doc, userId)`: owner or listed editor. -/
def canEdit (d : Doc) (userId : String) : Bool :=
  d.ownerId == userId || d.editors.contains userId

def unlockedLock : LockState := ⟨none, none⟩

/-- Lazy-expiry step of the lock route: a lock older than the TTL is
cleared before the conflict check. -/
def lazyExpire (l : LockState) (now ttl : Int) : LockState :=
  match l.lockedAt with
  | some t => if now - t > ttl then unlockedLock else l
  | none => l

/-- The conflict test `doc.lock.userId && String(doc.lock.userId) !== userId`. -/
def heldByOther (l : LockState) (userId : String) : Bool :=
  match l.userId with
  | some h => h != userId
  | none => false

/-- Model of `POST /:id/lock`: requires edit access, lazily expires the
stored lock, rejects with 409 if a different holder remains, else takes
the lock with a fresh timestamp.  On rejection the document is returned
unchanged (the in-memory state is not saved). -/
def acquireOrRenewLock (ttl : Int) (d : Doc) (userId : String) (now : Int) : OpResult × Doc :=
  if !canEdit d userId then (.forbidden, d)
  else
    let l := lazyExpire d.lock now ttl
    if heldByOther l userId then (.locked, d)
    else (.ok, { d with lock := ⟨some userId, some now⟩ })

/-- Model of `POST /:id/unlock`: no access check; clears the lock only
when the requester is the holder; always answers ok. -/
def releaseLock (d : Doc) (userId : String) : OpResult × Doc :=
  match d.lock.userId with
  | some h => if h == userId then (.ok, { d with lock := unlockedLock }) else (.ok, d)
  | none => (.ok, d)

/-- Model of `PUT /:id/content`: edit access, then the lock conflict
check (note: no lazy expiry here, unlike the lock route), then the
document-type check, then the write, which also takes the lock with a
fresh timestamp. -/
def writeTextContent (d : Doc) (userId content : String) (now : Int) : OpResult × Doc :=
  if !canEdit d userId then (.forbidden, d)
  else if heldByOther d.lock userId then (.locked, d)
  else if ¬ d.dtype = DocType.text then (.badType, d)
  else (.ok, { d with content := content, lock := ⟨some userId, some now⟩ })

/-- The key normalisation `String(k).toUpperCase().trim()` applied to
every written cell key. -/
def normKeyL (k : List Char) : List Char := trimL (upperL k)

def normKey (k : String) : String := String.mk (normKeyL k.data)

/-- Model of `Map.prototype.set`: replace in place if present (keeping
insertion order), else append. -/
def setCell (cells : Cells) (k v : String) : Cells :=
  if cells.any (fun kv => kv.1 == k) then
    cells.map (fun kv => if kv.1 == k then (k, v) else kv)
  else cells ++ [(k, v)]

def applyCellUpdates (cells : Cells) (updates : Cells) : Cells :=
  updates.foldl (fun cs kv => setCell cs (normKey kv.1) kv.2) cells

/-- Model of `PUT /:id/spreadsheet`: edit access, lock conflict check
(again without lazy expiry), type check, then each submitted entry is
stored under its normalised key, and the lock is taken with a fresh
timestamp. -/
def writeSpreadsheetCells (d : Doc) (userId : String) (updates : Cells) (now : Int) :
    OpResult × Doc :=
  if !canEdit d userId then (.forbidden, d)
  else if heldByOther d.lock userId then (.locked, d)
  else if ¬ d.dtype = DocType.spreadsheet then (.badType, d)
  else
    (.ok, { d with cells := applyCellUpdates d.cells updates, lock := ⟨some userId, some now⟩ })

/-- Model of the `ensureSpreadsheet` plain-object-to-Map conversion:
rebuild the map from scratch, normalising every key. -/
def convertStoredCells (obj : Cells) : Cells :=
  obj.foldl (fun m kv => setCell m (normKey kv.1) kv.2) []

/-- Model of `POST /:id/grant-editor` (primary copy): only the owner
may grant; granting the owner is a 400 validation error; granting an
existing editor is a no-op; otherwise the target is appended.  The
email-to-id resolution is the external user store, so the handler takes
the resolved target id. -/
def grantEditor (d : Doc) (userId targetUid : String) : OpResult × Doc :=
  if ¬ d.ownerId = userId then (.forbidden, d)
  else if d.ownerId = targetUid then (.invalid, d)
  else if d.editors.contains targetUid then (.ok, d)
  else (.ok, { d with editors := d.editors ++ [targetUid] })

/-- Model of the stale second copy of `POST /:id/grant-editor`: same,
except there is no owner-target validation. -/
def grantEditorStale (d : Doc) (userId targetUid : String) : OpResult × Doc :=
  if ¬ d.ownerId = userId then (.forbidden, d)
  else if d.editors.contains targetUid then (.ok, d)
  else (.ok, { d with editors := d.editors ++ [targetUid] })

/-- Model of `POST /:id/revoke-editor`: only the owner may revoke;
revoking the owner is a 400 validation error; otherwise the target is
filtered out of the editors list. -/
def revokeEditor (d : Doc) (userId targetId : String) : OpResult × Doc :=
  if ¬ d.ownerId = userId then (.forbidden, d)
  else if d.ownerId = targetId then (.invalid, d)
  else (.ok, { d with editors := d.editors.filter (fun e => !(e == targetId)) })

/-- Model of `POST /:id/share`: only the owner; a token is generated
only when none exists yet (the fresh random token is a parameter), and
the share is enabled. -/
def enableShare (d : Doc) (userId freshToken : String) : OpResult × Doc :=
  if ¬ d.ownerId = userId then (.forbidden, d)
  else
    let d1 := if d.publicShareId = none then { d with publicShareId := some freshToken } else d
    (.ok, { d1 with isPublic := true })

/-- Model of `POST /:id/unshare`: only the owner; clears only the
enabled flag, retaining the token. -/
def disableShare (d : Doc) (userId : String) : OpResult × Doc :=
  if ¬ d.ownerId = userId then (.forbidden, d)
  else (.ok, { d with isPublic := false })

/-- Model of `Document.create` with the schema defaults: empty content
and cells, no editors, no share token, share disabled, lock unheld. -/
def createDoc (owner title : String) (dtype : DocType) : Doc :=
  ⟨owner, title, dtype, "", [], [], none, false, unlockedLock, []⟩

/-- A share-toggling request, for stating token stability over
arbitrary operation sequences. -/
inductive ShareOp
  | enable (userId freshToken : String)
  | disable (userId : String)

def applyShareOp (d : Doc) (op : ShareOp) : Doc :=
  match op with
  | .enable u t => (enableShare d u t).2
  | .disable u => (disableShare d u).2

/-! ## Invariants -/

/-- The documented lock invariant: `holder` is none iff `acquiredAt` is none. -/
def LockInv (l : LockState) : Prop := l.userId = none ↔ l.lockedAt = none

def DocLockInv (d : Doc) : Prop := LockInv d.lock

instance (l : LockState) : Decidable (LockInv l) := by
  unfold LockInv
  infer_instance

instance (d : Doc) : Decidable (DocLockInv d) := by
  unfold DocLockInv
  infer_instance

/-- A stored cell key as the server actually normalises it: uppercase
(fixed by `toUpperCase`) and trimmed (fixed by `trim`). -/
def cellKeyNormalized (k : String) : Prop := upperL k.data = k.data ∧ trimL k.data = k.data

instance (k : String) : Decidable (cellKeyNormalized k) := by
  unfold cellKeyNormalized
  infer_instance

def keysOf (cells : Cells) : List String := cells.map (fun kv => kv.1)

def CellsInv (cells : Cells) : Prop :=
  (∀ k ∈ keysOf cells, cellKeyNormalized k) ∧ (keysOf cells).Nodup

instance (cells : Cells) : Decidable (CellsInv cells) := by
  unfold CellsInv
  infer_instance

/-- The editors-set invariant: never contains the owner, no duplicates. -/
def EditorsInv (d : Doc) : Prop := d.ownerId ∉ d.editors ∧ d.editors.Nodup

instance (d : Doc) : Decidable (EditorsInv d) := by
  unfold EditorsInv
  infer_instance

/-! ## Derived notions and concrete instances used by the theorems -/

/-- The numeric contribution of a referenced cell to a sum: its parsed
raw value, or 0 when the raw value is NaN (skipped by the source loop). -/
def contribJ (cells : Cells) (key : List Char) : JsNum :=
  (jsNumber (getRawL cells key)).getD jzero

/-- A string that is literally a valid normalised cell reference
(`[A-Z][1-9][0-9]*`), the claims' notion of a valid reference. -/
def refShapeB (s : String) : Bool := (cellRefCore s.data).isSome

/-- The raw text `=SUM(` r1 `:` r2 `)`. -/
def mkRangeFormula (r1 r2 : String) : String :=
  String.mk ('=' :: 'S' :: 'U' :: 'M' :: '(' :: ((r1.data ++ (':' :: r2.data)) ++ [')']))

/-- A text document owned by `owner1`, editable by `ed1`, whose lock is
held by `ed1` since time 0. -/
def dC1cex : Doc :=
  ⟨"owner1", "t", DocType.text, "old", [], ["ed1"], none, false, ⟨some "ed1", some 0⟩, []⟩

/-- A freshly created spreadsheet document owned by `own`. -/
def dSheetW : Doc :=
  ⟨"own", "s", DocType.spreadsheet, "", [], [], none, false, ⟨none, none⟩, []⟩

/-- The spec scenario cells: A1 = 2, A2 = 3, A3 a SUM formula. -/
def cellsA : Cells := [("A1", "2"), ("A2", "3"), ("A3", "=SUM(A1:A2)")]

/-- The same cells after changing A1 to the non-numeric `x`. -/
def cellsB : Cells := [("A1", "x"), ("A2", "3"), ("A3", "=SUM(A1:A2)")]

/-! ## Generic list lemmas -/

theorem foldl_congrF {α β : Type} (f g : α → β → α) (l : List β) (s : α)
    (h : ∀ s x, f s x = g s x) : l.foldl f s = l.foldl g s := by
  induction l generalizing s with
  | nil => rfl
  | cons a t ih => simp only [List.foldl_cons, h, ih]

theorem head?_append_left {l l2 : List Char} (h : l ≠ []) : (l ++ l2).head? = l.head? := by
  cases l with
  | nil => exact absurd rfl h
  | cons c r => rfl

theorem map_fix {l : List Char} {f : Char → Char} (h : ∀ c ∈ l, f c = c) : l.map f = l := by
  induction l with
  | nil => rfl
  | cons c r ih =>
    simp only [List.map_cons, h c (List.mem_cons_self c r),
      ih (fun x hx => h x (List.mem_cons_of_mem c hx))]

theorem dropWhile_all_false {p : Char → Bool} {l : List Char} (h : ∀ c ∈ l, p c = false) :
    l.dropWhile p = l := by
  cases l with
  | nil => rfl
  | cons c r => simp [List.dropWhile_cons, h c (List.mem_cons_self c r)]

theorem dropWhile_idem (p : Char → Bool) (l : List Char) :
    List.dropWhile p (List.dropWhile p l) = List.dropWhile p l := by
  induction l with
  | nil => simp
  | cons c r ih =>
    by_cases h : p c
    · simp [List.dropWhile_cons, h, ih]
    · simp [List.dropWhile_cons, h]

theorem mem_of_mem_dropWhile {p : Char → Bool} {c : Char} {l : List Char}
    (h : c ∈ l.dropWhile p) : c ∈ l :=
  (List.dropWhile_sublist p).mem h

/-! ## Trim lemmas -/

theorem dropTrailWs_idem (l : List Char) : dropTrailWs (dropTrailWs l) = dropTrailWs l := by
  induction l with
  | nil => rfl
  | cons c r ih =>
    by_cases h1 : dropTrailWs r = []
    · by_cases hw : isWsChar c
      · simp [dropTrailWs, h1, hw]
      · simp [dropTrailWs, h1, hw]
    · simp only [dropTrailWs, h1, if_neg, if_false]
      simp only [ih, h1, if_false]

theorem dropTrailWs_all_false {l : List Char} (h : ∀ c ∈ l, isWsChar c = false) :
    dropTrailWs l = l := by
  induction l with
  | nil => rfl
  | cons c r ih =>
    have hr : dropTrailWs r = r := ih (fun x hx => h x (List.mem_cons_of_mem c hx))
    have hc : isWsChar c = false := h c (List.mem_cons_self c r)
    by_cases h1 : r = []
    · subst h1; simp [dropTrailWs, hc]
    · simp [dropTrailWs, hr, h1, hc]

theorem mem_dropTrailWs {c : Char} {l : List Char} (h : c ∈ dropTrailWs l) : c ∈ l := by
  induction l with
  | nil => simp [dropTrailWs] at h
  | cons a r ih =>
    by_cases h1 : dropTrailWs r = []
    · by_cases hw : isWsChar a
      · simp [dropTrailWs, h1, hw] at h
      · simp [dropTrailWs, h1, hw] at h
        simp [h]
    · simp only [dropTrailWs, h1, if_false] at h
      rcases List.mem_cons.1 h with h2 | h2
      · simp [h2]
      · exact List.mem_cons_of_mem a (ih h2)

theorem dropLead_dropTrail {m : List Char} (h : dropLeadWs m = m) :
    dropLeadWs (dropTrailWs m) = dropTrailWs m := by
  cases m with
  | nil => rfl
  | cons c r =>
    have hc : isWsChar c = false := by
      by_contra hcc
      have hcc2 : isWsChar c = true := by
        cases hx : isWsChar c
        · exact absurd hx hcc
        · rfl
      have h2 : dropLeadWs (c :: r) = dropLeadWs r := by
        simp [dropLeadWs, List.dropWhile_cons, hcc2]
      rw [h2] at h
      have h3 : (List.dropWhile isWsChar r).length ≤ r.length :=
        (List.dropWhile_sublist isWsChar).length_le
      rw [show dropLeadWs r = List.dropWhile isWsChar r from rfl] at h
      have h4 := congrArg List.length h
      simp at h4
      omega
    by_cases h1 : dropTrailWs r = []
    · by_cases hw : isWsChar c
      · rw [hw] at hc; simp at hc
      · simp [dropTrailWs, h1, hw, dropLeadWs, List.dropWhile_cons, hc]
    · simp [dropTrailWs, h1, dropLeadWs, List.dropWhile_cons, hc]

theorem trimL_idem (l : List Char) : trimL (trimL l) = trimL l := by
  unfold trimL
  have h1 : dropLeadWs (dropLeadWs l) = dropLeadWs l := dropWhile_idem isWsChar l
  rw [dropLead_dropTrail h1, dropTrailWs_idem]

theorem trimL_all_false {l : List Char} (h : ∀ c ∈ l, isWsChar c = false) : trimL l = l := by
  unfold trimL
  rw [show dropLeadWs l = l from dropWhile_all_false h, dropTrailWs_all_false h]

theorem mem_trimL {c : Char} {l : List Char} (h : c ∈ trimL l) : c ∈ l :=
  mem_of_mem_dropWhile (mem_dropTrailWs h)

/-! ## Uppercasing lemmas -/

theorem toUpper_toUpper (c : Char) : Char.toUpper (Char.toUpper c) = Char.toUpper c := by
  unfold Char.toUpper
  by_cases h : 97 ≤ c.toNat ∧ c.toNat ≤ 122
  · simp only [h, and_self, if_true]
    obtain ⟨h1, h2⟩ := h
    set m := c.toNat with hm
    interval_cases m <;> decide
  · simp only [h, if_false]

theorem toUpper_fix {c : Char} (h : c.toNat < 97) : Char.toUpper c = c := by
  unfold Char.toUpper
  have h2 : ¬ (97 ≤ c.toNat ∧ c.toNat ≤ 122) := by omega
  simp only [h2, if_false]

theorem mem_upperL {c : Char} {l : List Char} (h : c ∈ upperL l) : ∃ a, Char.toUpper a = c := by
  obtain ⟨a, _, ha⟩ := List.mem_map.1 h
  exact ⟨a, ha⟩

theorem upperL_normKeyL (k : List Char) : upperL (normKeyL k) = normKeyL k := by
  apply map_fix
  intro c hc
  obtain ⟨a, ha⟩ := mem_upperL (mem_trimL hc)
  rw [← ha, toUpper_toUpper]

theorem normKey_normalized (k : String) : cellKeyNormalized (normKey k) := by
  constructor
  · exact upperL_normKeyL k.data
  · exact trimL_idem (upperL k.data)

/-! ## Decimal rendering lemmas -/

theorem natDecAux_ne_nil (fuel n : Nat) : natDecAux (fuel + 1) n ≠ [] := by
  simp only [natDecAux]
  by_cases h : n < 10
  · simp [h]
  · simp [h]

theorem natDec_ne_nil (n : Nat) : natDec n ≠ [] := natDecAux_ne_nil n n

theorem natDecAux_digits (fuel : Nat) :
    ∀ n c, c ∈ natDecAux fuel n → isDigitChar c = true := by
  induction fuel with
  | zero => intro n c hc; simp [natDecAux] at hc
  | succ f ih =>
    intro n c hc
    simp only [natDecAux] at hc
    by_cases h : n < 10
    · rw [if_pos h] at hc
      simp at hc
      subst hc
      interval_cases n <;> decide
    · rw [if_neg h] at hc
      rcases List.mem_append.1 hc with h1 | h2
      · exact ih _ _ h1
      · simp at h2
        subst h2
        have hm : n % 10 < 10 := Nat.mod_lt _ (by omega)
        revert hm
        generalize n % 10 = m
        intro hm
        interval_cases m <;> decide

theorem intDec_ne_nil (i : Int) : intDec i ≠ [] := by
  unfold intDec
  split
  · simp
  · exact natDec_ne_nil _

theorem intDec_head_ne_hash (i : Int) (c : Char) (h : (intDec i).head? = some c) : c ≠ '#' := by
  unfold intDec at h
  split at h
  · simp at h
    subst h
    decide
  · cases hn : natDec i.natAbs with
    | nil => exact absurd hn (natDec_ne_nil _)
    | cons d r =>
      rw [hn] at h
      simp at h
      subst h
      have hd : isDigitChar d = true :=
        natDecAux_digits (i.natAbs + 1) i.natAbs d (by rw [show natDecAux (i.natAbs + 1) i.natAbs = natDec i.natAbs from rfl, hn]; exact List.mem_cons_self d r)
      intro hceq
      subst hceq
      revert hd
      decide

theorem jsNumToStr_ne_err (q : JsNum) : jsNumToStr q ≠ errMark := by
  unfold jsNumToStr
  split
  · intro h
    exact intDec_head_ne_hash _ '#' (by rw [h]; rfl) rfl
  · intro h
    have h2 : (intDec q.num ++ '/' :: natDec q.den).head? = some '#' := by rw [h]; rfl
    rw [head?_append_left (intDec_ne_nil _)] at h2
    exact intDec_head_ne_hash _ '#' h2 rfl

/-! ## Number parsing lemmas -/

theorem jsNumber_formula_none {l : List Char} (h : (trimL l).head? = some '=') :
    jsNumber l = none := by
  obtain ⟨r, hr⟩ : ∃ r, trimL l = '=' :: r := by
    cases ht : trimL l with
    | nil => rw [ht] at h; simp at h
    | cons c r =>
      rw [ht] at h
      simp at h
      exact ⟨r, by rw [h]⟩
  unfold jsNumber
  rw [hr]
  rfl

theorem trimL_getRawL (cells : Cells) (key : List Char) :
    trimL (getRawL cells key) = getRawL cells key :=
  trimL_idem _

theorem getRawL_formula_none {cells : Cells} {key : List Char}
    (h : (getRawL cells key).head? = some '=') : jsNumber (getRawL cells key) = none := by
  apply jsNumber_formula_none
  rw [trimL_getRawL]
  exact h

/-! ## Lock handler lemmas -/

theorem heldByOther_false_iff (l : LockState) (u : String) :
    heldByOther l u = false ↔ (l.userId = none ∨ l.userId = some u) := by
  unfold heldByOther
  cases hl : l.userId with
  | none => simp
  | some h => simp [bne_eq_false_iff_eq]

theorem lazyExpire_some {l : LockState} (now ttl : Int) {t : Int} (h : l.lockedAt = some t) :
    lazyExpire l now ttl = if now - t > ttl then unlockedLock else l := by
  unfold lazyExpire
  rw [h]

theorem lazyExpire_none {l : LockState} (now ttl : Int) (h : l.lockedAt = none) :
    lazyExpire l now ttl = l := by
  unfold lazyExpire
  rw [h]

theorem acquire_eq (ttl : Int) (d : Doc) (u : String) (now : Int) (hce : canEdit d u = true) :
    acquireOrRenewLock ttl d u now =
      if heldByOther (lazyExpire d.lock now ttl) u then (.locked, d)
      else (.ok, { d with lock := ⟨some u, some now⟩ }) := by
  unfold acquireOrRenewLock
  rw [hce]
  rfl

/-- Claim C3: for every document, lock.holder is none iff lock.acquiredAt
is none: the invariant holds at creation and is preserved by the lazy
expiry step, lock acquisition, lock release, text-content writes and
spreadsheet writes. -/
theorem lock_invariant_preserved :
    (∀ owner title dt, DocLockInv (createDoc owner title dt))
    ∧ (∀ l now ttl, LockInv l → LockInv (lazyExpire l now ttl))
    ∧ (∀ ttl d u now, DocLockInv d → DocLockInv (acquireOrRenewLock ttl d u now).2)
    ∧ (∀ d u, DocLockInv d → DocLockInv (releaseLock d u).2)
    ∧ (∀ d u c now, DocLockInv d → DocLockInv (writeTextContent d u c now).2)
    ∧ (∀ d u ups now, DocLockInv d → DocLockInv (writeSpreadsheetCells d u ups now).2) := by
  refine ⟨?_, ?_, ?_, ?_, ?_, ?_⟩
  · intro o t dt
    simp [createDoc, DocLockInv, LockInv, unlockedLock]
  · intro l now ttl h
    unfold lazyExpire
    cases hl : l.lockedAt with
    | none => exact h
    | some t =>
      by_cases he : now - t > ttl
      · simp [he, LockInv, unlockedLock]
      · simp only [he, if_false]
        exact h
  · intro ttl d u now h
    unfold acquireOrRenewLock
    cases hce : canEdit d u
    · simp only [Bool.not_false, if_true]
      exact h
    · simp only [Bool.not_true, Bool.false_eq_true, if_false]
      by_cases hh : heldByOther (lazyExpire d.lock now ttl) u = true
      · simp only [hh, if_true]
        exact h
      · simp only [Bool.not_eq_true] at hh
        simp only [hh, Bool.false_eq_true, if_false]
        simp [DocLockInv, LockInv]
  · intro d u h
    unfold releaseLock
    cases hl : d.lock.userId with
    | none => exact h
    | some holder =>
      by_cases hb : (holder == u) = true
      · simp only [hb, if_true]
        simp [DocLockInv, LockInv, unlockedLock]
      · simp only [Bool.not_eq_true] at hb
        simp only [hb, if_false]
        exact h
  · intro d u c now h
    unfold writeTextContent
    cases hce : canEdit d u
    · simp only [Bool.not_false, if_true]
      exact h
    · simp only [Bool.not_true, if_false]
      by_cases hh : heldByOther d.lock u = true
      · simp only [hh, if_true]
        exact h
      · simp only [Bool.not_eq_true] at hh
        simp only [hh, if_false]
        by_cases htyp : d.dtype = DocType.text
        · simp only [htyp, not_true, if_false]
          simp [DocLockInv, LockInv]
        · simp only [htyp, not_false_iff, if_true]
          exact h
  · intro d u ups now h
    unfold writeSpreadsheetCells
    cases hce : canEdit d u
    · simp only [Bool.not_false, if_true]
      exact h
    · simp only [Bool.not_true, if_false]
      by_cases hh : heldByOther d.lock u = true
      · simp only [hh, if_true]
        exact h
      · simp only [Bool.not_eq_true] at hh
        simp only [hh, if_false]
        by_cases htyp : d.dtype = DocType.spreadsheet
        · simp only [htyp, not_true, if_false]
          simp [DocLockInv, LockInv]
        · simp only [htyp, not_false_iff, if_true]
          exact h

/-- Witness for C3 at concrete inputs. -/
theorem lock_invariant_preserved_witness :
    DocLockInv (acquireOrRenewLock 120000 dC1cex "owner1" 1000000000).2
    ∧ DocLockInv (writeTextContent dC1cex "ed1" "x" 5).2
    ∧ DocLockInv (releaseLock dC1cex "ed1").2
    ∧ LockInv (lazyExpire ⟨some "ed1", some 0⟩ 1000000000 120000) :=
  ⟨lock_invariant_preserved.2.2.1 120000 dC1cex "owner1" 1000000000 (by decide),
   lock_invariant_preserved.2.2.2.2.1 dC1cex "ed1" "x" 5 (by decide),
   lock_invariant_preserved.2.2.2.1 dC1cex "ed1" (by decide),
   lock_invariant_preserved.2.1 ⟨some "ed1", some 0⟩ 1000000000 120000 (by decide)⟩

/-- Claim C2: acquire/renew (touch) succeeds and installs the requester
with a fresh timestamp whenever the lock is unheld, already held by the
requester, or expired; it fails with a Locked conflict and no state
change exactly when a different holder is within the TTL. -/
theorem acquire_renew_spec (ttl : Int) (d : Doc) (u : String) (now : Int)
    (hce : canEdit d u = true) (hinv : DocLockInv d) :
    ((d.lock.userId = none ∨ d.lock.userId = some u ∨
        (∃ t, d.lock.lockedAt = some t ∧ now - t > ttl)) →
      acquireOrRenewLock ttl d u now = (.ok, { d with lock := ⟨some u, some now⟩ }))
    ∧ (∀ h t, d.lock.userId = some h → h ≠ u → d.lock.lockedAt = some t → ¬ now - t > ttl →
      acquireOrRenewLock ttl d u now = (.locked, d)) := by
  have hacq := acquire_eq ttl d u now hce
  constructor
  · intro hcase
    have hfree : heldByOther (lazyExpire d.lock now ttl) u = false := by
      rcases hcase with h0 | h0 | ⟨t, ht, hexp⟩
      · have hlA : d.lock.lockedAt = none := hinv.1 h0
        rw [lazyExpire_none now ttl hlA, heldByOther_false_iff]
        exact Or.inl h0
      · cases hl : d.lock.lockedAt with
        | none =>
          have h2 : d.lock.userId = none := hinv.2 hl
          rw [h0] at h2
          simp at h2
        | some t =>
          rw [lazyExpire_some now ttl hl]
          by_cases hexp : now - t > ttl
          · rw [if_pos hexp]
            rfl
          · rw [if_neg hexp, heldByOther_false_iff]
            exact Or.inr h0
      · rw [lazyExpire_some now ttl ht, if_pos hexp]
        rfl
    rw [hacq, hfree]
    simp
  · intro h t hh hne hl hnexp
    have hlz : lazyExpire d.lock now ttl = d.lock := by
      rw [lazyExpire_some now ttl hl, if_neg hnexp]
    have hheld : heldByOther d.lock u = true := by
      unfold heldByOther
      rw [hh]
      exact bne_iff_ne.mpr hne
    rw [hacq, hlz, hheld]
    simp

/-- Witness for C2: renewing one's own non-expired lock succeeds with a
refreshed timestamp; a different requester within the TTL gets Locked. -/
theorem acquire_renew_spec_witness :
    acquireOrRenewLock 600000 dC1cex "ed1" 50 =
      (.ok, { dC1cex with lock := ⟨some "ed1", some 50⟩ })
    ∧ acquireOrRenewLock 600000 dC1cex "owner1" 50 = (.locked, dC1cex) := by
  constructor
  · exact (acquire_renew_spec 600000 dC1cex "ed1" 50 (by decide) (by decide)).1
      (Or.inr (Or.inl rfl))
  · exact (acquire_renew_spec 600000 dC1cex "owner1" 50 (by decide) (by decide)).2
      "ed1" 0 rfl (by decide) rfl (by decide)

/-- Counterexample to claim C1 as stated: the content-write handler has
no lazy-expiry step, so a write by an owner against a different
holder's lock that is long expired (under either TTL constant) is still
rejected with Locked, where the claim requires success. -/
theorem writeText_expired_cex :
    canEdit dC1cex "owner1" = true ∧ dC1cex.dtype = DocType.text
    ∧ dC1cex.lock.userId = some "ed1" ∧ ¬ ("ed1" : String) = "owner1"
    ∧ dC1cex.lock.lockedAt = some 0
    ∧ ((1000000000 : Int) - 0 > 120000 ∧ (1000000000 : Int) - 0 > 600000)
    ∧ writeTextContent dC1cex "owner1" "new" 1000000000 = (.locked, dC1cex) := by
  decide

/-- Claim C1 (amended): for a text document and a requester with edit
access, writeTextContent succeeds exactly when the lock is unheld or
held by the requester, leaving the requester holding the lock with a
refreshed timestamp; any different holder, expired or not, yields
Locked with the document (content and lock) unchanged. -/
theorem writeText_lock_spec (d : Doc) (u c : String) (now : Int)
    (hce : canEdit d u = true) (htyp : d.dtype = DocType.text) :
    ((d.lock.userId = none ∨ d.lock.userId = some u) →
      writeTextContent d u c now = (.ok, { d with content := c, lock := ⟨some u, some now⟩ }))
    ∧ (∀ h, d.lock.userId = some h → h ≠ u →
      writeTextContent d u c now = (.locked, d)) := by
  have heq : writeTextContent d u c now =
      if heldByOther d.lock u then (.locked, d)
      else (.ok, { d with content := c, lock := ⟨some u, some now⟩ }) := by
    unfold writeTextContent
    rw [hce]
    by_cases hh : heldByOther d.lock u = true
    · simp [hh]
    · simp only [Bool.not_eq_true] at hh
      simp [hh, htyp]
  constructor
  · intro hcase
    rw [heq, (heldByOther_false_iff d.lock u).2 hcase]
    simp
  · intro h hh hne
    have hheld : heldByOther d.lock u = true := by
      unfold heldByOther
      rw [hh]
      exact bne_iff_ne.mpr hne
    rw [heq, hheld]
    simp

/-- Witness for the amended C1: the holder writes successfully with a
refreshed lock; a different editor is rejected with Locked. -/
theorem writeText_lock_spec_witness :
    writeTextContent dC1cex "ed1" "new" 77 =
      (.ok, { dC1cex with content := "new", lock := ⟨some "ed1", some 77⟩ })
    ∧ writeTextContent dC1cex "owner1" "new" 77 = (.locked, dC1cex) := by
  constructor
  · exact (writeText_lock_spec dC1cex "ed1" "new" 77 (by decide) rfl).1 (Or.inr rfl)
  · exact (writeText_lock_spec dC1cex "owner1" "new" 77 (by decide) rfl).2 "ed1" rfl (by decide)

/-- Claim C10: releaseLock performs no access classification: it
answers Ok for every requester, clears the lock exactly when the
requester is the current holder, and otherwise changes nothing. -/
theorem release_lock_spec (d : Doc) (u : String) :
    (releaseLock d u).1 = .ok
    ∧ (d.lock.userId = some u → releaseLock d u = (.ok, { d with lock := unlockedLock }))
    ∧ (¬ d.lock.userId = some u → releaseLock d u = (.ok, d)) := by
  unfold releaseLock
  cases hl : d.lock.userId with
  | none => simp
  | some holder =>
    by_cases he : holder = u
    · subst he
      simp
    · have hb : (holder == u) = false := beq_eq_false_iff_ne.mpr he
      simp [hb, he]

/-- Witness for C10: a requester with no access at all gets Ok with the
document untouched; the holder's release clears the lock. -/
theorem release_lock_spec_witness :
    releaseLock dC1cex "stranger" = (.ok, dC1cex)
    ∧ releaseLock dC1cex "ed1" = (.ok, { dC1cex with lock := unlockedLock }) := by
  constructor
  · exact (release_lock_spec dC1cex "stranger").2.2 (by decide)
  · exact (release_lock_spec dC1cex "ed1").2.1 rfl

/-! ## Share-token lemmas -/

theorem disableShare_keeps_token (d : Doc) (u : String) :
    (disableShare d u).2.publicShareId = d.publicShareId := by
  unfold disableShare
  by_cases ho : d.ownerId = u <;> simp [ho]

theorem enableShare_keeps_token {d : Doc} (u t : String) {tok : String}
    (h : d.publicShareId = some tok) : (enableShare d u t).2.publicShareId = some tok := by
  unfold enableShare
  by_cases ho : d.ownerId = u <;> simp [ho, h]

theorem enableShare_isSome (d : Doc) (u t : String) (hown : d.ownerId = u) :
    ((enableShare d u t).2.publicShareId).isSome = true := by
  unfold enableShare
  cases hv : d.publicShareId with
  | none => simp [hown, hv]
  | some tok => simp [hown, hv]

theorem shareOps_keep_token :
    ∀ (ops : List ShareOp) (d : Doc) (tok : String), d.publicShareId = some tok →
      (ops.foldl applyShareOp d).publicShareId = some tok := by
  intro ops
  induction ops with
  | nil =>
    intro d tok h
    exact h
  | cons op rest ih =>
    intro d tok h
    simp only [List.foldl_cons]
    apply ih
    cases op with
    | enable u t => exact enableShare_keeps_token u t h
    | disable u =>
      rw [show applyShareOp d (ShareOp.disable u) = (disableShare d u).2 from rfl,
        disableShare_keeps_token]
      exact h

/-- Claim C9: the public share token is generated on first enable only;
disabling retains it, so disable-then-re-enable yields the same token,
and no sequence of enable/disable operations ever changes an existing
token. -/
theorem share_token_stable (d : Doc) (u t0 t1 : String) (hown : d.ownerId = u) :
    (((enableShare d u t0).2.publicShareId).isSome = true)
    ∧ ((disableShare (enableShare d u t0).2 u).2.publicShareId
        = (enableShare d u t0).2.publicShareId)
    ∧ ((enableShare (disableShare (enableShare d u t0).2 u).2 u t1).2.publicShareId
        = (enableShare d u t0).2.publicShareId)
    ∧ (∀ tok, d.publicShareId = some tok →
        ∀ ops : List ShareOp, (ops.foldl applyShareOp d).publicShareId = some tok) := by
  have h1 := enableShare_isSome d u t0 hown
  obtain ⟨tokE, htokE⟩ := Option.isSome_iff_exists.mp h1
  refine ⟨h1, ?_, ?_, ?_⟩
  · rw [disableShare_keeps_token]
  · have h2 : (disableShare (enableShare d u t0).2 u).2.publicShareId = some tokE := by
      rw [disableShare_keeps_token]
      exact htokE
    rw [enableShare_keeps_token u t1 h2, htokE]
  · intro tok htok ops
    exact shareOps_keep_token ops d tok htok

/-- Witness for C9 at a concrete document and tokens. -/
theorem share_token_stable_witness :
    ((enableShare dSheetW "own" "tokA").2.publicShareId).isSome = true
    ∧ (enableShare (disableShare (enableShare dSheetW "own" "tokA").2 "own").2
        "own" "tokB").2.publicShareId = (enableShare dSheetW "own" "tokA").2.publicShareId :=
  ⟨(share_token_stable dSheetW "own" "tokA" "tokB" rfl).1,
   (share_token_stable dSheetW "own" "tokA" "tokB" rfl).2.2.1⟩

/-! ## Editors lemmas, claim C8 -/

/-- Counterexample to claim C8 as stated: the stale second copy of the
grant-editor handler performs no owner-target validation, so the owner
granting their own id succeeds and the editors set then contains the
ownerId. -/
theorem grant_owner_stale_cex :
    grantEditorStale dSheetW "own" "own" = (.ok, { dSheetW with editors := ["own"] })
    ∧ (grantEditorStale dSheetW "own" "own").2.ownerId
        ∈ (grantEditorStale dSheetW "own" "own").2.editors := by
  decide

/-- Claim C8 (amended): under the primary handlers the editors set never
contains the owner and never duplicates: granting the owner fails with a
validation error, granting an existing (non-owner) editor is a no-op,
revoking the owner fails with a validation error, and both handlers
preserve the invariant from creation on.  The stale second grant-editor
copy violates the owner exclusion (see the counterexample). -/
theorem editors_inv_spec :
    (∀ o t dt, EditorsInv (createDoc o t dt))
    ∧ (∀ d u tgt, EditorsInv d → EditorsInv (grantEditor d u tgt).2)
    ∧ (∀ d u tgt, EditorsInv d → EditorsInv (revokeEditor d u tgt).2)
    ∧ (∀ d u, d.ownerId = u → grantEditor d u d.ownerId = (.invalid, d))
    ∧ (∀ d u, d.ownerId = u → revokeEditor d u d.ownerId = (.invalid, d))
    ∧ (∀ d u tgt, d.ownerId = u → ¬ d.ownerId = tgt → d.editors.contains tgt = true →
        grantEditor d u tgt = (.ok, d)) := by
  refine ⟨?_, ?_, ?_, ?_, ?_, ?_⟩
  · intro o t dt
    simp [createDoc, EditorsInv]
  · intro d u tgt h
    unfold grantEditor
    by_cases ho : d.ownerId = u
    · rw [if_neg (not_not_intro ho)]
      by_cases hot : d.ownerId = tgt
      · rw [if_pos hot]
        exact h
      · rw [if_neg hot]
        by_cases hc : d.editors.contains tgt = true
        · rw [if_pos hc]
          exact h
        · simp only [Bool.not_eq_true] at hc
          rw [if_neg (by rw [hc]; exact Bool.false_ne_true)]
          constructor
          · intro hm
            rcases List.mem_append.1 hm with hm1 | hm2
            · exact h.1 hm1
            · simp at hm2
              exact hot hm2
          · have htgt : tgt ∉ d.editors := by
              intro hm
              have : d.editors.contains tgt = true := List.elem_iff.mpr hm
              rw [hc] at this
              exact Bool.false_ne_true this
            simp [List.nodup_append, h.2, htgt]
    · rw [if_pos ho]
      exact h
  · intro d u tgt h
    unfold revokeEditor
    by_cases ho : d.ownerId = u
    · rw [if_neg (not_not_intro ho)]
      by_cases hot : d.ownerId = tgt
      · rw [if_pos hot]
        exact h
      · rw [if_neg hot]
        constructor
        · intro hm
          exact h.1 (List.mem_of_mem_filter hm)
        · exact h.2.filter _
    · rw [if_pos ho]
      exact h
  · intro d u hown
    unfold grantEditor
    rw [if_neg (not_not_intro hown), if_pos rfl]
  · intro d u hown
    unfold revokeEditor
    rw [if_neg (not_not_intro hown), if_pos rfl]
  · intro d u tgt hown hot hc
    unfold grantEditor
    rw [if_neg (not_not_intro hown), if_neg hot, if_pos hc]

/-- Witness for the amended C8 at concrete inputs. -/
theorem editors_inv_spec_witness :
    EditorsInv (grantEditor dSheetW "own" "alice").2
    ∧ grantEditor dSheetW "own" "own" = (.invalid, dSheetW)
    ∧ revokeEditor dSheetW "own" "own" = (.invalid, dSheetW) :=
  ⟨editors_inv_spec.2.1 dSheetW "own" "alice" (by decide),
   editors_inv_spec.2.2.2.1 dSheetW "own" rfl,
   editors_inv_spec.2.2.2.2.1 dSheetW "own" rfl⟩

/-! ## Spreadsheet key invariant, claim C7 -/

theorem mem_keysOf_any {cells : Cells} {k : String} (h : k ∈ keysOf cells) :
    cells.any (fun kv => kv.1 == k) = true := by
  obtain ⟨kv, hkv, hk⟩ := List.mem_map.1 h
  apply List.any_eq_true.2
  exact ⟨kv, hkv, by rw [hk]; exact beq_self_eq_true k⟩

theorem keysOf_setCell_mem {cells : Cells} {k : String} (v : String)
    (h : cells.any (fun kv => kv.1 == k) = true) :
    keysOf (setCell cells k v) = keysOf cells := by
  unfold setCell
  rw [if_pos h]
  unfold keysOf
  rw [List.map_map]
  apply List.map_congr_left
  intro kv hkv
  by_cases hb : (kv.1 == k) = true
  · simp only [Function.comp_apply, hb, if_true]
    exact (beq_iff_eq.mp hb).symm
  · simp only [Bool.not_eq_true] at hb
    simp only [Function.comp_apply, hb, Bool.false_eq_true, if_false]

theorem keysOf_setCell_new {cells : Cells} {k : String} (v : String)
    (h : ¬ cells.any (fun kv => kv.1 == k) = true) :
    keysOf (setCell cells k v) = keysOf cells ++ [k] := by
  unfold setCell
  rw [if_neg h]
  unfold keysOf
  simp

theorem setCell_inv {cells : Cells} {k : String} (v : String)
    (hinv : CellsInv cells) (hk : cellKeyNormalized k) : CellsInv (setCell cells k v) := by
  by_cases ha : cells.any (fun kv => kv.1 == k) = true
  · have hkeys := keysOf_setCell_mem v ha
    unfold CellsInv
    rw [hkeys]
    exact hinv
  · have hkeys := keysOf_setCell_new v ha
    have hnm : k ∉ keysOf cells := fun hm => ha (mem_keysOf_any hm)
    unfold CellsInv
    rw [hkeys]
    constructor
    · intro key hkey
      rcases List.mem_append.1 hkey with h1 | h2
      · exact hinv.1 key h1
      · simp at h2
        rw [h2]
        exact hk
    · simp [List.nodup_append, hinv.2, hnm]

theorem foldl_setCell_inv :
    ∀ (ups : Cells) (cells : Cells), CellsInv cells →
      CellsInv (ups.foldl (fun cs kv => setCell cs (normKey kv.1) kv.2) cells) := by
  intro ups
  induction ups with
  | nil =>
    intro cells h
    exact h
  | cons kv rest ih =>
    intro cells h
    simp only [List.foldl_cons]
    exact ih _ (setCell_inv kv.2 h (normKey_normalized kv.1))

/-- Counterexample to claim C7 as stated: the handler normalises keys
(uppercase, trim) but never validates them against the cell-reference
pattern, so writing the malformed key a0 stores the key A0, which does
not match the pattern. -/
theorem sheet_key_pattern_cex :
    (writeSpreadsheetCells dSheetW "own" [("a0", "1")] 5).1 = .ok
    ∧ keysOf (writeSpreadsheetCells dSheetW "own" [("a0", "1")] 5).2.cells = ["A0"]
    ∧ cellRefCore "A0".data = none := by
  decide

/-- Claim C7 (amended): after every writeSpreadsheetCells the cell keys
are uppercase, trimmed and unique, from creation on (and the stored-map
conversion also normalises); the cell-reference pattern, however, is
not enforced on stored keys (see the counterexample). -/
theorem sheet_keys_normalized_spec :
    (∀ o t dt, CellsInv (createDoc o t dt).cells)
    ∧ (∀ cells, CellsInv (convertStoredCells cells))
    ∧ (∀ d u ups now, CellsInv d.cells → CellsInv (writeSpreadsheetCells d u ups now).2.cells) := by
  refine ⟨?_, ?_, ?_⟩
  · intro o t dt
    constructor
    · intro k hk
      simp [createDoc, keysOf] at hk
    · simp [createDoc, keysOf]
  · intro cells
    apply foldl_setCell_inv
    constructor
    · intro k hk
      simp [keysOf] at hk
    · simp [keysOf]
  · intro d u ups now h
    unfold writeSpreadsheetCells
    cases hce : canEdit d u
    · simp only [Bool.not_false, if_true]
      exact h
    · simp only [Bool.not_true, Bool.false_eq_true, if_false]
      by_cases hh : heldByOther d.lock u = true
      · simp only [hh, if_true]
        exact h
      · simp only [Bool.not_eq_true] at hh
        simp only [hh, Bool.false_eq_true, if_false]
        by_cases htyp : d.dtype = DocType.spreadsheet
        · simp only [htyp, not_true, if_false]
          exact foldl_setCell_inv ups d.cells h
        · simp only [htyp, not_false_iff, if_true]
          exact h

/-- Witness for the amended C7: a write with lowercase and padded keys
stores normalised unique keys. -/
theorem sheet_keys_normalized_spec_witness :
    CellsInv (writeSpreadsheetCells dSheetW "own" [("a0", "1"), (" b2 ", "x")] 5).2.cells :=
  sheet_keys_normalized_spec.2.2 dSheetW "own" [("a0", "1"), (" b2 ", "x")] 5 (by decide)

/-! ## Evaluator shape lemmas -/

theorem evalCellL_not_formula {raw : List Char} (cells : Cells)
    (h : ¬ (trimL raw).head? = some '=') : evalCellL raw cells = trimL raw := by
  unfold evalCellL
  rw [if_neg h]

theorem evalCellL_wrapper_none {raw : List Char} (cells : Cells)
    (hfm : (trimL raw).head? = some '=')
    (hw : sumWrapper (upperL (trimL raw)) = none) : evalCellL raw cells = errMark := by
  unfold evalCellL
  rw [if_pos hfm, hw]

theorem evalCellL_wrapper_some {raw : List Char} (cells : Cells) {inside0 : List Char}
    (hfm : (trimL raw).head? = some '=')
    (hw : sumWrapper (upperL (trimL raw)) = some inside0) :
    evalCellL raw cells =
      (if (trimL inside0).contains ':' then
        jsNumToStr (sumRangeL ((splitSepL ':' (trimL inside0)).headD [])
          (((splitSepL ':' (trimL inside0)).drop 1).headD []) cells)
      else
        jsNumToStr ((((splitSepL ',' (trimL inside0)).map trimL).filter
          (fun p => !p.isEmpty)).foldl (fun s p => refContrib cells p s) jzero)) := by
  unfold evalCellL
  rw [if_pos hfm, hw]

/-! ## Contribution congruence -/

theorem addJ_jzero (s : JsNum) : s.addJ jzero = s := by
  unfold JsNum.addJ jzero
  simp

theorem cellContrib_eq (cells : Cells) (key : List Char) (s : JsNum) :
    cellContrib cells key s = s.addJ (contribJ cells key) := by
  unfold cellContrib contribJ
  cases h : jsNumber (getRawL cells key) with
  | some n => rfl
  | none => exact (addJ_jzero s).symm

theorem sumRangeL_congr {cells cells2 : Cells}
    (h : ∀ key, contribJ cells key = contribJ cells2 key) (a b : List Char) :
    sumRangeL a b cells = sumRangeL a b cells2 := by
  unfold sumRangeL
  cases parseCellRef a with
  | none => cases parseCellRef b <;> rfl
  | some A =>
    cases parseCellRef b with
    | none => rfl
    | some B =>
      apply foldl_congrF
      intro s c
      apply foldl_congrF
      intro s2 r
      rw [cellContrib_eq, cellContrib_eq, h]

theorem refContrib_congr {cells cells2 : Cells}
    (h : ∀ key, contribJ cells key = contribJ cells2 key) (p : List Char) (s : JsNum) :
    refContrib cells p s = refContrib cells2 p s := by
  unfold refContrib
  cases parseCellRef p with
  | none => rfl
  | some ref =>
    show cellContrib cells (ref.col :: natDec ref.row) s
      = cellContrib cells2 (ref.col :: natDec ref.row) s
    rw [cellContrib_eq, cellContrib_eq, h]

theorem evalCell_congr {cells cells2 : Cells}
    (h : ∀ key, contribJ cells key = contribJ cells2 key) (raw : String) :
    evalCell raw cells = evalCell raw cells2 := by
  unfold evalCell
  by_cases hfm : (trimL raw.data).head? = some '='
  · cases hw : sumWrapper (upperL (trimL raw.data)) with
    | none => rw [evalCellL_wrapper_none cells hfm hw, evalCellL_wrapper_none cells2 hfm hw]
    | some inside0 =>
      rw [evalCellL_wrapper_some cells hfm hw, evalCellL_wrapper_some cells2 hfm hw]
      by_cases hc : (trimL inside0).contains ':' = true
      · rw [if_pos hc, if_pos hc, sumRangeL_congr h]
      · rw [if_neg hc, if_neg hc]
        rw [foldl_congrF (fun s p => refContrib cells p s) (fun s p => refContrib cells2 p s)
          (((splitSepL ',' (trimL inside0)).map trimL).filter (fun p => !p.isEmpty)) jzero
          (fun s p => refContrib_congr h p s)]
  · rw [evalCellL_not_formula cells hfm, evalCellL_not_formula cells2 hfm]

theorem contribJ_none_zero {cells : Cells} {key : List Char}
    (h : jsNumber (getRawL cells key) = none) : contribJ cells key = jzero := by
  unfold contribJ
  rw [h]
  rfl

theorem contribJ_absent_zero {cells : Cells} {key : List Char}
    (h : lookupCells cells (String.mk (upperL key)) = none) : contribJ cells key = jzero := by
  unfold contribJ getRawL
  rw [h]
  rfl

/-- Claim C4: evaluation reads only raw values one level deep.  A
referenced cell whose trimmed raw value begins with an equals sign is
non-numeric to Number (so it contributes 0, the same as an absent or
otherwise non-numeric cell, never an error), evaluation depends on the
referenced cells only through these numeric contributions, and the spec
scenario holds: with A1=2, A2=3, A3==SUM(A1:A2), evaluating A3 gives 5;
after changing A1 to x it gives 3. -/
theorem eval_one_level_spec :
    (∀ cells key, (getRawL cells key).head? = some '=' → jsNumber (getRawL cells key) = none)
    ∧ (∀ cells key, jsNumber (getRawL cells key) = none → contribJ cells key = jzero)
    ∧ (∀ cells key, lookupCells cells (String.mk (upperL key)) = none → contribJ cells key = jzero)
    ∧ (∀ cells cells2, (∀ key, contribJ cells key = contribJ cells2 key) →
        ∀ raw, evalCell raw cells = evalCell raw cells2)
    ∧ evalCell (getRaw cellsA "A3") cellsA = "5"
    ∧ evalCell (getRaw cellsB "A3") cellsB = "3" := by
  refine ⟨?_, ?_, ?_, ?_, ?_, ?_⟩
  · intro cells key h
    exact getRawL_formula_none h
  · intro cells key h
    exact contribJ_none_zero h
  · intro cells key h
    exact contribJ_absent_zero h
  · intro cells cells2 h raw
    exact evalCell_congr h raw
  · decide
  · decide

theorem contribJ_singleton_pair :
    ∀ key, contribJ [("A1", "2")] key = contribJ [("A1", "2"), ("B9", "=SUM(A1:A1)")] key := by
  intro key
  unfold contribJ getRawL lookupCells
  by_cases h1 : (("A1" : String) == String.mk (upperL key)) = true
  · simp only [List.find?, h1]
  · simp only [List.find?, h1, Bool.false_eq_true, if_false]
    by_cases h2 : (("B9" : String) == String.mk (upperL key)) = true
    · simp only [h2]
      decide
    · simp only [h2, Bool.false_eq_true, if_false]

/-- Witness for C4: concrete formula-valued, absent and non-numeric
referenced cells, and a concrete pair of cell maps (one with a
formula-valued B9, one without it) evaluating identically. -/
theorem eval_one_level_spec_witness :
    jsNumber (getRawL cellsA "A3".data) = none
    ∧ contribJ cellsA "A3".data = jzero
    ∧ contribJ cellsA "B7".data = jzero
    ∧ evalCell "=SUM(A1,B9,A2)" [("A1", "2")]
        = evalCell "=SUM(A1,B9,A2)" [("A1", "2"), ("B9", "=SUM(A1:A1)")] :=
  ⟨eval_one_level_spec.1 cellsA "A3".data (by decide),
   eval_one_level_spec.2.1 cellsA "A3".data (by decide),
   eval_one_level_spec.2.2.1 cellsA "B7".data (by decide),
   eval_one_level_spec.2.2.2.1 _ _ contribJ_singleton_pair "=SUM(A1,B9,A2)"⟩

/-- Counterexample to claim C5 as stated: the formula =SUM(1) begins
with an equals sign and is not a SUM over valid references (1 matches
no cell reference), yet the evaluator returns the numeric string 0, not
the error marker. -/
theorem eval_err_cex :
    evalCell "=SUM(1)" [] = "0"
    ∧ ¬ evalCell "=SUM(1)" [] = "#ERR"
    ∧ parseCellRef "1".data = none
    ∧ evalCell "=SUM(A1:)" [] = "0" := by
  decide

/-- Claim C5 (amended): a raw value beginning with an equals sign
evaluates to the literal error marker exactly when its uppercased form
fails the loose wrapper shape =SUM\((.+)\); whenever the wrapper
matches, the result is the rendering of a number and is never the error
marker, even if the argument holds invalid references (they are
silently skipped, e.g. =SUM(1) gives 0) or a malformed range. -/
theorem eval_err_spec (raw : String) (cells : Cells)
    (hfm : (trimL raw.data).head? = some '=') :
    (sumWrapper (upperL (trimL raw.data)) = none → evalCell raw cells = "#ERR")
    ∧ (∀ inside, sumWrapper (upperL (trimL raw.data)) = some inside →
        ¬ evalCell raw cells = "#ERR") := by
  constructor
  · intro hw
    unfold evalCell
    rw [evalCellL_wrapper_none cells hfm hw]
    rfl
  · intro inside hw heq
    unfold evalCell at heq
    rw [evalCellL_wrapper_some cells hfm hw] at heq
    have hdata := congrArg String.data heq
    by_cases hc : (trimL inside).contains ':' = true
    · rw [if_pos hc] at hdata
      exact jsNumToStr_ne_err _ hdata
    · rw [if_neg hc] at hdata
      exact jsNumToStr_ne_err _ hdata

/-- Witness for the amended C5: =AVG(A1:A2) fails the wrapper and gives
the error marker; =SUM(1) matches the wrapper and does not. -/
theorem eval_err_spec_witness :
    evalCell "=AVG(A1:A2)" cellsA = "#ERR"
    ∧ ¬ evalCell "=SUM(1)" cellsA = "#ERR" := by
  constructor
  · exact (eval_err_spec "=AVG(A1:A2)" cellsA (by decide)).1 (by decide)
  · exact (eval_err_spec "=SUM(1)" cellsA (by decide)).2 "1".data (by decide)

/-! ## Split lemmas -/

theorem splitSepL_ne_nil (sep : Char) (l : List Char) : splitSepL sep l ≠ [] := by
  cases l with
  | nil => simp [splitSepL]
  | cons c rest =>
    simp only [splitSepL]
    cases h : splitSepL sep rest with
    | nil => simp
    | cons s ss =>
      by_cases hc : c = sep <;> simp [hc]

theorem splitSepL_no_sep (sep : Char) (l : List Char)
    (h : ∀ c ∈ l, c ≠ sep) : splitSepL sep l = [l] := by
  induction l with
  | nil => rfl
  | cons c rest ih =>
    have hc : c ≠ sep := h c (List.mem_cons_self c rest)
    have hrest : splitSepL sep rest = [rest] :=
      ih (fun x hx => h x (List.mem_cons_of_mem c hx))
    simp [splitSepL, hrest, hc]

theorem splitSepL_append (sep : Char) (l1 l2 : List Char)
    (h : ∀ c ∈ l1, c ≠ sep) : splitSepL sep (l1 ++ sep :: l2) = l1 :: splitSepL sep l2 := by
  induction l1 with
  | nil =>
    simp only [List.nil_append, splitSepL]
    cases hs : splitSepL sep l2 with
    | nil => exact absurd hs (splitSepL_ne_nil sep l2)
    | cons s ss => simp
  | cons c rest ih =>
    have hc : c ≠ sep := h c (List.mem_cons_self c rest)
    have hrest := ih (fun x hx => h x (List.mem_cons_of_mem c hx))
    simp only [List.cons_append, splitSepL]
    rw [show rest.append (sep :: l2) = rest ++ sep :: l2 from rfl, hrest]
    simp [hc]

/-! ## Character-class facts for valid references -/

theorem isUpperAZ_range {c : Char} (h : isUpperAZ c = true) : 65 ≤ c.toNat ∧ c.toNat ≤ 90 := by
  unfold isUpperAZ at h
  simp only [Bool.and_eq_true, decide_eq_true_eq] at h
  exact h

theorem isDigitChar_range {c : Char} (h : isDigitChar c = true) : 48 ≤ c.toNat ∧ c.toNat ≤ 57 := by
  unfold isDigitChar at h
  simp only [Bool.and_eq_true, decide_eq_true_eq] at h
  exact h

theorem isDigit19Char_range {c : Char} (h : isDigit19Char c = true) :
    49 ≤ c.toNat ∧ c.toNat ≤ 57 := by
  unfold isDigit19Char at h
  simp only [Bool.and_eq_true, decide_eq_true_eq] at h
  exact h

theorem refShapeB_chars {s : String} (h : refShapeB s = true) :
    ∀ c ∈ s.data, (48 ≤ c.toNat ∧ c.toNat ≤ 57) ∨ (65 ≤ c.toNat ∧ c.toNat ≤ 90) := by
  intro x hx
  unfold refShapeB cellRefCore at h
  cases hd : s.data with
  | nil =>
    rw [hd] at hx
    simp at hx
  | cons c ds =>
    rw [hd] at h hx
    have h2 : (if (isUpperAZ c && rowDigitsOk ds) = true
        then some ({ col := c, row := decVal ds } : CellRef) else none).isSome = true := h
    by_cases hcond : (isUpperAZ c && rowDigitsOk ds) = true
    · rw [Bool.and_eq_true] at hcond
      obtain ⟨hup, hrow⟩ := hcond
      rcases List.mem_cons.1 hx with h3 | h3
      · right
        subst h3
        exact isUpperAZ_range hup
      · left
        cases ds with
        | nil => simp at h3
        | cons d ds2 =>
          have hrow2 : (isDigit19Char d && ds2.all isDigitChar) = true := hrow
          rw [Bool.and_eq_true] at hrow2
          obtain ⟨hd19, hall⟩ := hrow2
          rcases List.mem_cons.1 h3 with h4 | h4
          · subst h4
            have h19 := isDigit19Char_range hd19
            omega
          · exact isDigitChar_range (List.all_eq_true.mp hall x h4)
    · rw [if_neg hcond] at h2
      simp at h2

theorem refShape_not_ws {s : String} (h : refShapeB s = true) :
    ∀ c ∈ s.data, isWsChar c = false := by
  intro c hc
  rcases refShapeB_chars h c hc with h1 | h1 <;>
    · simp only [isWsChar, Bool.or_eq_false_iff, Bool.and_eq_false_iff,
        decide_eq_false_iff_not]
      omega

theorem refShape_upper_fix {s : String} (h : refShapeB s = true) :
    ∀ c ∈ s.data, Char.toUpper c = c := by
  intro c hc
  rcases refShapeB_chars h c hc with h1 | h1 <;> exact toUpper_fix (by omega)

theorem refShape_not_colon {s : String} (h : refShapeB s = true) :
    ∀ c ∈ s.data, c ≠ ':' := by
  intro c hc heq
  have h58 : c.toNat = 58 := by rw [heq]; rfl
  rcases refShapeB_chars h c hc with h1 | h1 <;> omega

/-! ## Corner-order independence, claim C6 -/

theorem mkRange_data (r1 r2 : String) :
    (mkRangeFormula r1 r2).data
      = '=' :: 'S' :: 'U' :: 'M' :: '(' :: ((r1.data ++ (':' :: r2.data)) ++ [')']) := rfl

theorem mkRange_not_ws {r1 r2 : String} (h1 : refShapeB r1 = true) (h2 : refShapeB r2 = true) :
    ∀ c ∈ (mkRangeFormula r1 r2).data, isWsChar c = false := by
  intro c hc
  rw [mkRange_data] at hc
  simp only [List.mem_cons, List.mem_append, List.mem_singleton] at hc
  rcases hc with rfl | rfl | rfl | rfl | rfl | (hm | (rfl | hm)) | (rfl | hm)
  · decide
  · decide
  · decide
  · decide
  · decide
  · exact refShape_not_ws h1 c hm
  · decide
  · exact refShape_not_ws h2 c hm
  · decide
  · simp at hm

theorem mkRange_upper_fix {r1 r2 : String} (h1 : refShapeB r1 = true) (h2 : refShapeB r2 = true) :
    ∀ c ∈ (mkRangeFormula r1 r2).data, Char.toUpper c = c := by
  intro c hc
  rw [mkRange_data] at hc
  simp only [List.mem_cons, List.mem_append, List.mem_singleton] at hc
  rcases hc with rfl | rfl | rfl | rfl | rfl | (hm | (rfl | hm)) | (rfl | hm)
  · decide
  · decide
  · decide
  · decide
  · decide
  · exact refShape_upper_fix h1 c hm
  · decide
  · exact refShape_upper_fix h2 c hm
  · decide
  · simp at hm

theorem refShape_not_lineTerm {s : String} (h : refShapeB s = true) :
    ∀ c ∈ s.data, isLineTerm c = false := by
  intro c hc
  rcases refShapeB_chars h c hc with h1 | h1 <;>
    · simp only [isLineTerm, Bool.or_eq_false_iff, decide_eq_false_iff_not]
      omega

theorem sumWrapper_mkRange (r1 r2 : String)
    (h1 : refShapeB r1 = true) (h2 : refShapeB r2 = true) :
    sumWrapper ('=' :: 'S' :: 'U' :: 'M' :: '(' :: ((r1.data ++ (':' :: r2.data)) ++ [')']))
      = some (r1.data ++ (':' :: r2.data)) := by
  show (if ((r1.data ++ (':' :: r2.data)) ++ [')']).getLast? = some ')'
        ∧ 2 ≤ ((r1.data ++ (':' :: r2.data)) ++ [')']).length
        ∧ ((r1.data ++ (':' :: r2.data)) ++ [')']).dropLast.all (fun c => !isLineTerm c) = true
      then some (((r1.data ++ (':' :: r2.data)) ++ [')']).dropLast) else none)
      = some (r1.data ++ (':' :: r2.data))
  have hall : ((r1.data ++ (':' :: r2.data)) ++ [')']).dropLast.all
      (fun c => !isLineTerm c) = true := by
    rw [List.dropLast_concat]
    apply List.all_eq_true.mpr
    intro x hx
    simp only [List.mem_append, List.mem_cons] at hx
    rcases hx with hm | (rfl | hm)
    · simp [refShape_not_lineTerm h1 x hm]
    · decide
    · simp [refShape_not_lineTerm h2 x hm]
  have hcnd : ((r1.data ++ (':' :: r2.data)) ++ [')']).getLast? = some ')'
      ∧ 2 ≤ ((r1.data ++ (':' :: r2.data)) ++ [')']).length
      ∧ ((r1.data ++ (':' :: r2.data)) ++ [')']).dropLast.all (fun c => !isLineTerm c) = true := by
    refine ⟨List.getLast?_concat _, ?_, hall⟩
    simp only [List.length_append, List.length_cons, List.length_singleton]
    omega
  rw [if_pos hcnd, List.dropLast_concat]

theorem evalCell_range (r1 r2 : String) (cells : Cells)
    (h1 : refShapeB r1 = true) (h2 : refShapeB r2 = true) :
    evalCell (mkRangeFormula r1 r2) cells
      = String.mk (jsNumToStr (sumRangeL r1.data r2.data cells)) := by
  have htrim : trimL (mkRangeFormula r1 r2).data = (mkRangeFormula r1 r2).data :=
    trimL_all_false (mkRange_not_ws h1 h2)
  have hfm : (trimL (mkRangeFormula r1 r2).data).head? = some '=' := by
    rw [htrim, mkRange_data]
    rfl
  have hupper : upperL (trimL (mkRangeFormula r1 r2).data) = (mkRangeFormula r1 r2).data := by
    rw [htrim]
    exact map_fix (mkRange_upper_fix h1 h2)
  have hw : sumWrapper (upperL (trimL (mkRangeFormula r1 r2).data))
      = some (r1.data ++ (':' :: r2.data)) := by
    rw [hupper, mkRange_data]
    exact sumWrapper_mkRange r1 r2 h1 h2
  unfold evalCell
  rw [evalCellL_wrapper_some cells hfm hw]
  have hinws : ∀ c ∈ (r1.data ++ (':' :: r2.data)), isWsChar c = false := by
    intro c hc
    simp only [List.mem_append, List.mem_cons] at hc
    rcases hc with hm | (rfl | hm)
    · exact refShape_not_ws h1 c hm
    · decide
    · exact refShape_not_ws h2 c hm
  have htrimI : trimL (r1.data ++ (':' :: r2.data)) = r1.data ++ (':' :: r2.data) :=
    trimL_all_false hinws
  have hcol : ((trimL (r1.data ++ (':' :: r2.data))).contains ':') = true := by
    rw [htrimI]
    exact List.elem_iff.mpr (List.mem_append.2 (Or.inr (List.mem_cons_self ':' r2.data)))
  rw [if_pos hcol, htrimI]
  rw [splitSepL_append ':' r1.data r2.data (refShape_not_colon h1),
    splitSepL_no_sep ':' r2.data (refShape_not_colon h2)]
  rfl

/-- Claim C6: a SUM range is normalised by min/max in both the column
and the row dimension, so for all corner strings the computed range sum
is symmetric, and for all valid cell references R1 R2 the formulas
=SUM(R1:R2) and =SUM(R2:R1) evaluate identically over the same cells. -/
theorem sum_corner_order_spec :
    (∀ a b cells, sumRangeL a b cells = sumRangeL b a cells)
    ∧ (∀ r1 r2 cells, refShapeB r1 = true → refShapeB r2 = true →
        evalCell (mkRangeFormula r1 r2) cells = evalCell (mkRangeFormula r2 r1) cells) := by
  have hsym : ∀ a b cells, sumRangeL a b cells = sumRangeL b a cells := by
    intro a b cells
    unfold sumRangeL
    cases parseCellRef a with
    | none => cases parseCellRef b <;> rfl
    | some A =>
      cases parseCellRef b with
      | none => rfl
      | some B =>
        dsimp only
        rw [Nat.min_comm B.col.toNat A.col.toNat, Nat.max_comm B.col.toNat A.col.toNat,
          Nat.min_comm B.row A.row, Nat.max_comm B.row A.row]
  refine ⟨hsym, ?_⟩
  intro r1 r2 cells h1 h2
  rw [evalCell_range r1 r2 cells h1 h2, evalCell_range r2 r1 cells h2 h1, hsym]

/-- Witness for C6 at the spec scenario cells and references A1, A2. -/
theorem sum_corner_order_spec_witness :
    sumRangeL "A1".data "A3".data cellsA = sumRangeL "A3".data "A1".data cellsA
    ∧ evalCell (mkRangeFormula "A1" "A2") cellsA = evalCell (mkRangeFormula "A2" "A1") cellsA :=
  ⟨sum_corner_order_spec.1 "A1".data "A3".data cellsA,
   sum_corner_order_spec.2 "A1" "A2" cellsA (by decide) (by decide)⟩
